import Mathlib

/-!
Verification of the SupportGenieAI retrieval pipeline against its
natural-language specification.

The development shallowly embeds the TypeScript sources:

* `src/server/src/services/knowledgeBaseService.ts`
  (`KnowledgeBaseService.chunkDocument`, `splitText`, `addOverlap`,
  `ingest`, `search`, `deleteDocument`, `deleteAllForTenant`);
* `src/server/src/services/embeddingService.ts`
  (`EmbeddingService.simpleEmbedding`, `cosineSimilarity`);
* the in-memory vector store (`InMemoryVectorStore.upsert`, `search`,
  `delete`, `deleteByTenant`).

Modelling conventions:

* JavaScript strings are `List Char`; `String.prototype.slice`,
  `trim`, `split`, `includes` are embedded as executable functions on
  `List Char` below.  (JS strings are UTF-16 sequences; we identify a
  code unit with a `Char`, which is faithful for all text in scope.)
* JavaScript numbers used as sizes/indices are `ℕ` (or `ℤ` where the
  source can compute a negative value, e.g. the fixed-size-slicing
  stride `maxChunkSize - overlapSize`).
* Floating-point vector arithmetic is embedded over `ℚ`; the single
  transcendental primitive `Math.sqrt` is a parameter `sqrt : ℚ → ℚ`
  that every definition and every theorem is generic over, so both the
  code model and the spec model use the very same square-root.
* Recursive procedures whose termination is itself under scrutiny
  (`splitText` and its fixed-size fallback loop) are embedded with an
  explicit fuel parameter; fuel is consumed exactly at recursion
  (depth) and loop (iteration) steps, so "the code terminates on this
  input" is `∃ fuel, … = some result` and "the code hangs" is
  `∀ fuel, … = none`.
-/

/-! ## JS string primitives -/

/-- JS whitespace as relevant to `String.prototype.trim` for the
character set occurring in this repository. -/
def isJsWhite (c : Char) : Bool :=
  c = ' ' || c = '\n' || c = '\t' || c = '\r'

/-- `String.prototype.trim`. -/
def jsTrim (xs : List Char) : List Char :=
  ((xs.dropWhile isJsWhite).reverse.dropWhile isJsWhite).reverse

/-- `sep` occurs at the head of `xs`. -/
def leadsWith : List Char → List Char → Bool
  | [], _ => true
  | _ :: _, [] => false
  | a :: as, b :: bs => a = b && leadsWith as bs

/-- Scanner for `String.prototype.split(sep)` with non-empty `sep`:
`acc` holds the (reversed) current part, `skip` counts separator
characters still to be consumed after a match. -/
def splitOnGo (sep : List Char) : List Char → List Char → ℕ → List (List Char)
  | [], acc, _ => [acc.reverse]
  | _ :: t, acc, skip + 1 => splitOnGo sep t acc skip
  | c :: t, acc, 0 =>
    if leadsWith sep (c :: t) then
      acc.reverse :: splitOnGo sep t [] (sep.length - 1)
    else splitOnGo sep t (c :: acc) 0

/-- `String.prototype.split(sep)` (`"ab".split("")` is the character
list, otherwise split at each left-most occurrence). -/
def splitOnSep (sep xs : List Char) : List (List Char) :=
  match sep with
  | [] => xs.map (fun c => [c])
  | _ :: _ => splitOnGo sep xs [] 0

/-- `String.prototype.includes(sep)`. -/
def containsSub (xs sep : List Char) : Bool :=
  leadsWith sep xs ||
    match xs with
    | [] => false
    | _ :: t => containsSub t sep

/-- `String.prototype.slice(s, e)` with full negative-index
semantics. -/
def jsSlice (xs : List Char) (s e : ℤ) : List Char :=
  let len : ℤ := xs.length
  let s1 := (if s < 0 then max (len + s) 0 else min s len).toNat
  let e1 := (if e < 0 then max (len + e) 0 else min e len).toNat
  (xs.take e1).drop s1

/-- `String.prototype.slice(-n)` for `n > 0`: the last `n` characters
(the whole string when `n` exceeds its length). -/
def lastN (n : ℕ) (xs : List Char) : List Char :=
  xs.drop (xs.length - n)

/-! ## Chunker (`KnowledgeBaseService`) -/

/-- `ChunkConfig` from `src/server/src/types/knowledge.ts`. -/
structure ChunkConfig where
  maxChunkSize : ℕ
  overlapSize : ℕ
  separators : List (List Char)
deriving DecidableEq

/-- `DEFAULT_CHUNK_CONFIG` from `knowledgeBaseService.ts`. -/
def defaultChunkConfig : ChunkConfig :=
  ⟨500, 50, ["\n\n".toList, "\n".toList, "。".toList, ". ".toList, " ".toList]⟩

/-- Body of `addOverlap`'s `for` loop past the first chunk: `prev` is
the previous element of the input array (pre-overlap at this level),
and each chunk is prefixed with `prev.slice(-overlapSize)`. -/
def addOverlapGo (ov : ℕ) : List Char → List (List Char) → List (List Char)
  | _, [] => []
  | prev, c :: cs => (lastN ov prev ++ c) :: addOverlapGo ov c cs

/-- `KnowledgeBaseService.addOverlap`. -/
def addOverlap (chunks : List (List Char)) (ov : ℕ) : List (List Char) :=
  if chunks.length ≤ 1 || ov = 0 then chunks
  else
    match chunks with
    | [] => []
    | c0 :: rest => c0 :: addOverlapGo ov c0 rest

/-- The fixed-size-slicing fallback of `splitText`
(`for (let i = 0; i < text.length; i += maxChunkSize - overlapSize)`),
with one unit of fuel per loop iteration; `none` means the loop has
not exited within the given fuel. -/
def forcedLoopF (text : List Char) (maxC : ℕ) (stride : ℤ) :
    ℕ → ℤ → Option (List (List Char))
  | 0, _ => none
  | fuel + 1, i =>
    if i < (text.length : ℤ) then
      match forcedLoopF text maxC stride fuel (i + stride) with
      | none => none
      | some rest =>
        let ch := jsTrim (jsSlice text i (i + (maxC : ℤ)))
        some (if ch.length > 0 then ch :: rest else rest)
    else some []

/-- The part-accumulation loop inside `splitText` for one separator:
`split` is the recursive `splitText` call at the current fuel,
`current`/`result` are the loop variables; `none` propagates fuel
exhaustion from a recursive call. -/
def buildGo (split : List Char → Option (List (List Char))) (maxC : ℕ)
    (sep : List Char) :
    List (List Char) → List Char → List (List Char) → Option (List (List Char))
  | [], current, result =>
    if (jsTrim current).length > 0 then some (result ++ [jsTrim current])
    else some result
  | part :: rest, current, result =>
    let candidate := current ++ (if current.length > 0 then sep else []) ++ part
    if candidate.length ≤ maxC then buildGo split maxC sep rest candidate result
    else
      let result1 := if current.length > 0 then result ++ [jsTrim current] else result
      if maxC < part.length then
        match split part with
        | none => none
        | some sub => buildGo split maxC sep rest [] (result1 ++ sub)
      else buildGo split maxC sep rest part result1

/-- The `for (const separator of config.separators)` loop of
`splitText`: try each separator contained in the text; a separator
whose accumulated result is empty falls through to the next one.
`none` = fuel exhausted, `some none` = no separator produced a result,
`some (some r)` = returned `addOverlap r`. -/
def trySepsGo (split : List Char → Option (List (List Char)))
    (cfg : ChunkConfig) (text : List Char) :
    List (List Char) → Option (Option (List (List Char)))
  | [] => some none
  | sep :: rest =>
    if containsSub text sep then
      match buildGo split cfg.maxChunkSize sep (splitOnSep sep text) [] [] with
      | none => none
      | some result =>
        if 0 < result.length then some (some (addOverlap result cfg.overlapSize))
        else trySepsGo split cfg text rest
    else trySepsGo split cfg text rest

/-- `KnowledgeBaseService.splitText`, fuelled: fuel is consumed once
per recursion level and once per fallback-loop iteration, so the
source terminates on `(cfg, text)` iff some fuel yields `some`. -/
def splitTextF : ℕ → ChunkConfig → List Char → Option (List (List Char))
  | 0, _, _ => none
  | fuel + 1, cfg, text =>
    if text.length ≤ cfg.maxChunkSize then
      some (([jsTrim text]).filter (fun t => t.length > 0))
    else
      match trySepsGo (splitTextF fuel cfg) cfg text cfg.separators with
      | none => none
      | some (some r) => some r
      | some none =>
        forcedLoopF text cfg.maxChunkSize
          ((cfg.maxChunkSize : ℤ) - (cfg.overlapSize : ℤ)) fuel 0

/-- `splitText text cfg` terminates and produces a chunk list. -/
def SplitTerminates (cfg : ChunkConfig) (text : List Char) : Prop :=
  ∃ fuel r, splitTextF fuel cfg text = some r

/-- `KnowledgeBaseService.chunkDocument`, reduced to the data the
claims speak about: each produced chunk is its `content` paired with
its `chunkIndex` (ids are fresh uuids and the remaining metadata is a
verbatim copy of the document fields). -/
def chunkDocumentF (fuel : ℕ) (cfg : ChunkConfig) (content : List Char) :
    Option (List (List Char × ℕ)) :=
  if content.length ≤ cfg.maxChunkSize then some [(content, 0)]
  else (splitTextF fuel cfg content).map (fun ts => ts.enum.map (fun p => (p.2, p.1)))

/-! Concrete evaluation checks (chunker). -/

example : splitOnSep " ".toList "pp qq rr ss".toList =
    ["pp".toList, "qq".toList, "rr".toList, "ss".toList] := by decide

example :
    splitTextF 12 ⟨8, 2, defaultChunkConfig.separators⟩ "pp qq rr ss".toList =
      some ["pp qq rr".toList, "rrss".toList] := by decide

example :
    splitTextF 22 ⟨8, 2, defaultChunkConfig.separators⟩ "abcde\npp qq rr ss\nxyz".toList =
      some ["abcde".toList, "depp qq rr".toList, "rrrrss".toList, "ssxyz".toList] := by
  decide

/-! ## Embedding service (`EmbeddingService`) -/

/-- Result record of `EmbeddingService.simpleEmbedding`
(an `EmbeddingResponse`). -/
structure EmbResp where
  embedding : List ℚ
  model : String
  tokenCount : ℕ
deriving DecidableEq

/-- `embedding[idx] += 1`. -/
def bumpAt : List ℚ → ℕ → List ℚ
  | [], _ => []
  | x :: t, 0 => (x + 1) :: t
  | x :: t, n + 1 => x :: bumpAt t n

/-- The character loop of `simpleEmbedding`: for the character at
position `i` with code `c`, increment slot `(c + i) % 384`. -/
def countGo (i : ℕ) : List Char → List ℚ → List ℚ
  | [], v => v
  | c :: t, v => countGo (i + 1) t (bumpAt v ((c.toNat + i) % 384))

/-- Sum of squares (`reduce((sum, val) => sum + val * val, 0)`). -/
def sumSq (v : List ℚ) : ℚ :=
  (v.map (fun x => x * x)).sum

/-- The character-count vector of `simpleEmbedding`: a zero vector of
length 384 bumped once per character of the lower-cased text. -/
def rawCounts (text : List Char) : List ℚ :=
  countGo 0 (text.map Char.toLower) (List.replicate 384 (0 : ℚ))

/-- `EmbeddingService.simpleEmbedding`, generic over the square-root
primitive. -/
def simpleEmbedding (sqrt : ℚ → ℚ) (text : List Char) : EmbResp :=
  let v := rawCounts text
  let magnitude := sqrt (sumSq v)
  let emb := if 0 < magnitude then v.map (fun x => x / magnitude) else v
  ⟨emb, "simple-fallback", (text.length + 3) / 4⟩

/-- Modelled from the spec (§4.2 fallback strategy): zero vector of
length 384, lower-case the text, bump slot `(c + i) mod 384` per
character, L2-normalize dividing by the norm unless the norm is 0, and
report `ceil(textLength / 4)` tokens. -/
def specFallbackEmbedding (sqrt : ℚ → ℚ) (text : List Char) : EmbResp :=
  let v := rawCounts text
  let norm := sqrt (sumSq v)
  let emb := if norm = 0 then v else v.map (fun x => x / norm)
  ⟨emb, "simple-fallback", (text.length + 3) / 4⟩

/-- Dot product as accumulated by `cosineSimilarity`'s loop. -/
def dotProd (a b : List ℚ) : ℚ :=
  (List.zipWith (fun x y => x * y) a b).sum

/-- `EmbeddingService.cosineSimilarity`, generic over the square-root
primitive; the thrown `Error` is the `Except.error` case. -/
def cosineSimilarity (sqrt : ℚ → ℚ) (a b : List ℚ) : Except String ℚ :=
  if a.length ≠ b.length then .error "Vectors must have same dimensions"
  else
    let magnitudeA := sqrt (sumSq a)
    let magnitudeB := sqrt (sumSq b)
    if magnitudeA = 0 ∨ magnitudeB = 0 then .ok 0
    else .ok (dotProd a b / (magnitudeA * magnitudeB))

/-! ## In-memory vector store (`InMemoryVectorStore`) -/

/-- `DocumentChunk`, with the claim-relevant fields; uuids are
modelled as naturals drawn from a fresh counter, and `metadata` is
reduced to its `source` entry (the only field the claims consult). -/
structure Chunk where
  id : ℕ
  documentId : ℕ
  tenantId : String
  content : List Char
  chunkIndex : ℕ
  embedding : Option (List ℚ)
  source : Option String
deriving DecidableEq

/-- A scored chunk (`SearchResult`). -/
structure SearchResult where
  chunk : Chunk
  score : ℚ
deriving DecidableEq

/-- `Map.prototype.get`. -/
def alFind {κ α : Type} [DecidableEq κ] : List (κ × α) → κ → Option α
  | [], _ => none
  | (k1, v) :: t, k => if k1 = k then some v else alFind t k

/-- `Map.prototype.set`: replace in place, else append (JS maps keep
insertion order). -/
def alSet {κ α : Type} [DecidableEq κ] : List (κ × α) → κ → α → List (κ × α)
  | [], k, v => [(k, v)]
  | (k1, v1) :: t, k, v =>
    if k1 = k then (k, v) :: t else (k1, v1) :: alSet t k v

/-- `Map.prototype.delete` (keys are unique by construction). -/
def alDel {κ α : Type} [DecidableEq κ] (m : List (κ × α)) (k : κ) : List (κ × α) :=
  m.filter (fun p => ¬ p.1 = k)

/-- `Set.prototype.add` (insertion order, no duplicates). -/
def setAdd {κ : Type} [DecidableEq κ] (s : List κ) (k : κ) : List κ :=
  if k ∈ s then s else s ++ [k]

/-- `InMemoryVectorStore` state: `chunks` (id → chunk) and
`tenantIndex` (tenantId → set of chunk ids). -/
structure VStore where
  chunks : List (ℕ × Chunk)
  tenantIndex : List (String × List ℕ)
deriving DecidableEq

def emptyStore : VStore := ⟨[], []⟩

/-- One iteration of `upsert`'s loop (ids are assumed already
assigned, as they are everywhere in this repository: `chunkDocument`
gives every chunk a uuid before `upsert` sees it). -/
def upsertOne (vs : VStore) (c : Chunk) : VStore :=
  let chunks1 := alSet vs.chunks c.id c
  let ti :=
    match alFind vs.tenantIndex c.tenantId with
    | none => alSet vs.tenantIndex c.tenantId (setAdd [] c.id)
    | some ids => alSet vs.tenantIndex c.tenantId (setAdd ids c.id)
  ⟨chunks1, ti⟩

/-- `InMemoryVectorStore.upsert`. -/
def vsUpsert (vs : VStore) (cs : List Chunk) : VStore :=
  cs.foldl upsertOne vs

/-- The scoring loop of `InMemoryVectorStore.search`: skip ids whose
chunk is missing or has no embedding; a `cosineSimilarity` error
(thrown in JS) aborts the whole search. -/
def collectScores (sqrt : ℚ → ℚ) (chunks : List (ℕ × Chunk)) (emb : List ℚ) :
    List ℕ → Except String (List SearchResult)
  | [] => .ok []
  | id :: rest =>
    match alFind chunks id with
    | none => collectScores sqrt chunks emb rest
    | some c =>
      match c.embedding with
      | none => collectScores sqrt chunks emb rest
      | some e =>
        match cosineSimilarity sqrt emb e with
        | .error msg => .error msg
        | .ok s =>
          match collectScores sqrt chunks emb rest with
          | .error msg => .error msg
          | .ok tail => .ok (⟨c, s⟩ :: tail)

/-- Insertion step of the descending sort
(`results.sort((a, b) => b.score - a.score)`): a new element goes
after every element with a score ≥ its own. -/
def insertDesc (x : SearchResult) : List SearchResult → List SearchResult
  | [] => [x]
  | y :: ys => if y.score < x.score then x :: y :: ys else y :: insertDesc x ys

/-- Stable descending-by-score sort. -/
def sortDesc (l : List SearchResult) : List SearchResult :=
  l.foldl (fun acc x => insertDesc x acc) []

/-- `InMemoryVectorStore.search`. -/
def vsSearch (sqrt : ℚ → ℚ) (vs : VStore) (emb : List ℚ) (tenantId : String)
    (topK : ℕ) : Except String (List SearchResult) :=
  match alFind vs.tenantIndex tenantId with
  | none => .ok []
  | some ids =>
    if ids.length = 0 then .ok []
    else
      match collectScores sqrt vs.chunks emb ids with
      | .error msg => .error msg
      | .ok results => .ok ((sortDesc results).take topK)

/-- One iteration of `InMemoryVectorStore.delete`'s loop. -/
def vsDeleteOne (vs : VStore) (id : ℕ) : VStore :=
  match alFind vs.chunks id with
  | none => vs
  | some c =>
    let ti :=
      match alFind vs.tenantIndex c.tenantId with
      | none => vs.tenantIndex
      | some s => alSet vs.tenantIndex c.tenantId (s.filter (fun i => ¬ i = id))
    ⟨alDel vs.chunks id, ti⟩

/-- `InMemoryVectorStore.delete`. -/
def vsDelete (vs : VStore) (ids : List ℕ) : VStore :=
  ids.foldl vsDeleteOne vs

/-- `InMemoryVectorStore.deleteByTenant`. -/
def vsDeleteByTenant (vs : VStore) (tenantId : String) : VStore :=
  match alFind vs.tenantIndex tenantId with
  | none => vs
  | some ids =>
    ⟨ids.foldl (fun m id => alDel m id) vs.chunks, alDel vs.tenantIndex tenantId⟩

/-! ## Knowledge base orchestrator (`KnowledgeBaseService`) -/

/-- `SearchQuery` (`topK`/`minScore` optional, defaulted at the
destructuring site in `search`). -/
structure SearchQuery where
  queryText : List Char
  tenantId : String
  topK : Option ℕ
  minScore : Option ℚ

/-- `KnowledgeBaseResult`. -/
structure KBResult where
  content : List Char
  source : String
  relevanceScore : ℚ
deriving DecidableEq

/-- `r => ({content, source: metadata?.source || 'Unknown',
relevanceScore: score})`. -/
def toKBResult (r : SearchResult) : KBResult :=
  ⟨r.chunk.content, r.chunk.source.getD "Unknown", r.score⟩

/-- `KnowledgeBaseService.search`: embed the query with the fallback
embedder, over-fetch `2 * topK` candidates, filter by `minScore`,
truncate to `topK`, map to results. -/
def kbSearch (sqrt : ℚ → ℚ) (vs : VStore) (q : SearchQuery) :
    Except String (List KBResult) :=
  let topK := q.topK.getD 3
  let minScore := q.minScore.getD (1 / 2)
  let qe := simpleEmbedding sqrt q.queryText
  match vsSearch sqrt vs qe.embedding q.tenantId (topK * 2) with
  | .error e => .error e
  | .ok results =>
    .ok (((results.filter (fun r => minScore ≤ r.score)).take topK).map toKBResult)

/-- Document metadata as held in `KnowledgeBaseService.documents`,
reduced to the claim-relevant owner field. -/
structure DocRec where
  tenantId : String
deriving DecidableEq

/-- The ingest-side knowledge-base state: the `documents` map, the
shared vector store, and the uuid supply modelled as a counter. -/
structure KBState where
  nextId : ℕ
  documents : List (ℕ × DocRec)
  store : VStore
deriving DecidableEq

/-- A raw document spec of an `IngestRequest`. -/
structure DocSpec where
  title : String
  content : List Char
  source : String

/-- `IngestResult` (`documentId` is `none` for a failed entry, where
the source reports the empty string). -/
structure IngestResult where
  documentId : Option ℕ
  chunksCreated : ℕ
  success : Bool
  error : Option String
deriving DecidableEq

/-- The chunk records a document yields before embedding: contents
with indices from `chunkDocumentF`, chunk uuids drawn in order from
the counter (`n`, `n + 1`, …) after the document's own uuid, `source`
copied into the chunk metadata. -/
def mkChunks (tenant : String) (docId : ℕ) (src : String) :
    ℕ → List (List Char × ℕ) → List Chunk
  | _, [] => []
  | n, p :: ps =>
    ⟨n, docId, tenant, p.1, p.2, none, some src⟩
      :: mkChunks tenant docId src (n + 1) ps

/-- Attach one embedding per chunk (`chunks[i].embedding = embeddings[i].embedding`). -/
def attachEmbeddings (cs : List Chunk) (es : List (List ℚ)) : List Chunk :=
  List.zipWith (fun c e => { c with embedding := some e }) cs es

/-- One iteration of `ingest`'s per-document loop.  `embedB` is the
`embedBatch` call — the only awaited external operation inside the
`try` block, hence the only failure point the `catch` can observe; its
`Except.error` is the caught exception's message.  `none` models the
iteration never returning (chunking out of fuel, cf. `splitTextF`). -/
def ingestDoc (embedB : List (List Char) → Except String (List (List ℚ)))
    (fuel : ℕ) (cfg : ChunkConfig) (tenant : String) (st : KBState)
    (d : DocSpec) : Option (IngestResult × KBState) :=
  let docId := st.nextId
  match chunkDocumentF fuel cfg d.content with
  | none => none
  | some pieces =>
    let chunks := mkChunks tenant docId d.source (docId + 1) pieces
    match embedB (chunks.map Chunk.content) with
    | .error e => some (⟨none, 0, false, some e⟩, st)
    | .ok embs =>
      let chunks1 := attachEmbeddings chunks embs
      some (⟨some docId, chunks.length, true, none⟩,
        ⟨docId + 1 + chunks.length,
         alSet st.documents docId ⟨tenant⟩,
         vsUpsert st.store chunks1⟩)

/-- `KnowledgeBaseService.ingest`: process the documents in order,
appending one result entry each. -/
def ingest (embedB : List (List Char) → Except String (List (List ℚ)))
    (fuel : ℕ) (cfg : ChunkConfig) (tenant : String) :
    List DocSpec → KBState → Option (List IngestResult × KBState)
  | [], st => some ([], st)
  | d :: ds, st =>
    match ingestDoc embedB fuel cfg tenant st d with
    | none => none
    | some (r, st1) =>
      match ingest embedB fuel cfg tenant ds st1 with
      | none => none
      | some (rs, st2) => some (r :: rs, st2)

/-- The chunk texts a document contributes to its `embedBatch` call
(they depend only on the document and the configuration). -/
def docTexts (fuel : ℕ) (cfg : ChunkConfig) (d : DocSpec) : List (List Char) :=
  match chunkDocumentF fuel cfg d.content with
  | none => []
  | some pieces => pieces.map (fun p => p.1)

/-- `KnowledgeBaseService.deleteDocument`: verify existence and tenant
ownership, then remove the metadata only. -/
def deleteDocument (st : KBState) (docId : ℕ) (tenantId : String) :
    Bool × KBState :=
  match alFind st.documents docId with
  | none => (false, st)
  | some d =>
    if d.tenantId = tenantId then
      (true, ⟨st.nextId, alDel st.documents docId, st.store⟩)
    else (false, st)

/-- `KnowledgeBaseService.deleteAllForTenant`: drop the tenant's
document metadata (counting it) and the tenant's vector partition. -/
def deleteAllForTenant (st : KBState) (tenantId : String) : ℕ × KBState :=
  let deleted := (st.documents.filter (fun p => p.2.tenantId = tenantId)).length
  (deleted,
   ⟨st.nextId,
    st.documents.filter (fun p => ¬ p.2.tenantId = tenantId),
    vsDeleteByTenant st.store tenantId⟩)

/-! ## Helper lemmas: addOverlap -/

theorem addOverlapGo_length (ov : ℕ) :
    ∀ (cs : List (List Char)) (prev : List Char),
      (addOverlapGo ov prev cs).length = cs.length := by
  intro cs
  induction cs with
  | nil => intro prev; rfl
  | cons c cs ih => intro prev; simp [addOverlapGo, ih]

theorem addOverlapGo_get? (ov : ℕ) :
    ∀ (cs : List (List Char)) (prev : List Char) (i : ℕ),
      (addOverlapGo ov prev cs).get? i =
        match (prev :: cs).get? i, cs.get? i with
        | some p, some c => some (lastN ov p ++ c)
        | _, _ => none := by
  intro cs
  induction cs with
  | nil => intro prev i; cases i <;> rfl
  | cons c cs ih =>
    intro prev i
    cases i with
    | zero => rfl
    | succ k => simpa [addOverlapGo] using ih c k

/-! ## Claim C2 -/

/-- C2 counterexample: at `maxChunkSize = 8`, `overlapSize = 2`, the
oversized middle part `"pp qq rr ss"` of
`"abcde\npp qq rr ss\nxyz"` is split recursively into
`["pp qq rr", "rrss"]`, where `"rrss"` already carries the inner-level
overlap `"rr"` (the last 2 characters of `"pp qq rr"`) in front of its
own content `"ss"`.  The outer level then applies `addOverlap` to the
assembled list again, turning that recursion result into
`"rr" ++ "rrss" = "rrrrss"`: the recursion's result IS given an
additional overlap prefix by the outer level, and the final chunk is
not `overlap ++ ownContent = "rrss"` — the overlap is compounded
across levels, refuting the claim. -/
theorem overlap_compounded_counterexample :
    splitTextF 12 ⟨8, 2, defaultChunkConfig.separators⟩ "pp qq rr ss".toList
      = some ["pp qq rr".toList, "rrss".toList]
    ∧ splitTextF 22 ⟨8, 2, defaultChunkConfig.separators⟩
        "abcde\npp qq rr ss\nxyz".toList
      = some ["abcde".toList, "depp qq rr".toList, "rrrrss".toList, "ssxyz".toList]
    ∧ "rrss".toList = lastN 2 "pp qq rr".toList ++ "ss".toList
    ∧ "rrrrss".toList = lastN 2 "pp qq rr".toList ++ "rrss".toList
    ∧ ("rrrrss".toList == lastN 2 "pp qq rr".toList ++ "ss".toList) = false := by
  decide

/-- C2 amended: at each single split level, overlap is applied exactly
once to the list assembled at that level — the first element is
unchanged and element `i + 1` becomes the last `overlapSize`
characters of that level's element `i` (as assembled, before this
level's overlap pass) prepended to element `i + 1`.  Since assembled
elements may themselves be recursion results that already carry the
inner level's overlap, a chunk can accumulate overlap prefixes from
several levels (see the counterexample). -/
theorem addOverlap_single_level (chunks : List (List Char)) (ov : ℕ)
    (hov : 0 < ov) :
    (addOverlap chunks ov).length = chunks.length
    ∧ (addOverlap chunks ov).head? = chunks.head?
    ∧ ∀ i, (addOverlap chunks ov).get? (i + 1) =
        match chunks.get? i, chunks.get? (i + 1) with
        | some prev, some cur => some (lastN ov prev ++ cur)
        | _, _ => none := by
  by_cases hshort : chunks.length ≤ 1
  · have hunf : addOverlap chunks ov = chunks := by
      simp [addOverlap, hshort]
    refine ⟨by rw [hunf], by rw [hunf], ?_⟩
    intro i
    have hnone : chunks.get? (i + 1) = none := by
      apply List.get?_eq_none.mpr; omega
    rw [hunf, hnone]
    cases chunks.get? i <;> rfl
  · match chunks with
    | [] => simp at hshort
    | c0 :: rest =>
      have hunf : addOverlap (c0 :: rest) ov = c0 :: addOverlapGo ov c0 rest := by
        have h2 : ¬ (ov = 0) := by omega
        simp [addOverlap, hshort, h2]
        intro h
        subst h
        rfl
      refine ⟨?_, ?_, ?_⟩
      · rw [hunf]; simp [addOverlapGo_length]
      · rw [hunf]; rfl
      · intro i
        rw [hunf]
        simpa using addOverlapGo_get? ov rest c0 i

/-- C2 amended, witnessed at `chunks = [ab, cd]`, `overlapSize = 1`:
the second chunk becomes `b ++ cd`. -/
theorem addOverlap_single_level_witness :
    (addOverlap [['a', 'b'], ['c', 'd']] 1).get? 1
      = some (['b'] ++ ['c', 'd']) := by
  have h := (addOverlap_single_level [['a', 'b'], ['c', 'd']] 1 (by decide)).2.2 0
  simpa [lastN] using h

/-! ## Claim C3 -/

theorem forcedLoopF_stride_zero (text : List Char) (maxC : ℕ)
    (hlen : 0 < text.length) :
    ∀ (fuel : ℕ) (i : ℤ), i ≤ 0 → forcedLoopF text maxC 0 fuel i = none := by
  intro fuel
  induction fuel with
  | zero => intro i _; rfl
  | succ f ih =>
    intro i hi
    have hlt : i < (text.length : ℤ) := by
      have : (0 : ℤ) < (text.length : ℤ) := by exact_mod_cast hlen
      omega
    have hrec : forcedLoopF text maxC 0 f i = none := ih i hi
    simp [forcedLoopF, hlt, add_zero, hrec]

/-- C3: the chunker does NOT terminate on every configuration with
`maxChunkSize > 0`.  With `maxChunkSize = 1`, `overlapSize = 1`
(declared valid by the spec) and the separator-free text `"aa"`
(longer than `maxChunkSize`), `splitText` reaches the fixed-size
fallback loop whose stride is `maxChunkSize - overlapSize = 0`, and
the loop index never advances: no amount of fuel makes the model
return, i.e. the source loops forever at this input. -/
theorem splitText_stuck :
    ∀ fuel, splitTextF fuel ⟨1, 1, defaultChunkConfig.separators⟩ "aa".toList
      = none := by
  intro fuel
  cases fuel with
  | zero => rfl
  | succ f =>
    have h1 : trySepsGo (splitTextF f ⟨1, 1, defaultChunkConfig.separators⟩)
        ⟨1, 1, defaultChunkConfig.separators⟩ "aa".toList
        defaultChunkConfig.separators = some none := rfl
    have h2 : ¬ ("aa".toList.length ≤ 1) := by decide
    have h3 : ((1 : ℕ) : ℤ) - ((1 : ℕ) : ℤ) = 0 := by decide
    simp only [splitTextF, h1]
    rw [if_neg h2, h3]
    exact forcedLoopF_stride_zero _ _ (by decide) f 0 le_rfl

/-! ## Claim C6 -/

/-- C6 counterexample: a whitespace-padded document `" a "` is not
longer than `maxChunkSize`, and the single produced chunk is the
verbatim, UNTRIMMED input — not the trimmed input the claim
requires. -/
theorem chunk_untrimmed_counterexample :
    chunkDocumentF 1 defaultChunkConfig " a ".toList = some [(" a ".toList, 0)]
    ∧ (" a ".toList == jsTrim " a ".toList) = false := by
  decide

/-- C6 amended: for every document whose content length is at most
`maxChunkSize`, chunking returns exactly one chunk whose content is
the input text verbatim (NOT trimmed), with `chunkIndex = 0` and no
overlap applied. -/
theorem chunkDocument_small (fuel : ℕ) (cfg : ChunkConfig)
    (content : List Char) (h : content.length ≤ cfg.maxChunkSize) :
    chunkDocumentF fuel cfg content = some [(content, 0)] := by
  simp [chunkDocumentF, h]

/-- C6 amended, witnessed on `"hi"` with the default configuration. -/
theorem chunkDocument_small_witness :
    chunkDocumentF 0 defaultChunkConfig "hi".toList
      = some [("hi".toList, 0)] :=
  chunkDocument_small 0 defaultChunkConfig "hi".toList (by decide)

/-! ## Helper lemmas: fallback embedding and cosine similarity -/

theorem bumpAt_length : ∀ (v : List ℚ) (n : ℕ), (bumpAt v n).length = v.length := by
  intro v
  induction v with
  | nil => intro n; rfl
  | cons x t ih =>
    intro n
    cases n with
    | zero => rfl
    | succ k => simp [bumpAt, ih]

theorem countGo_length :
    ∀ (cs : List Char) (i : ℕ) (v : List ℚ), (countGo i cs v).length = v.length := by
  intro cs
  induction cs with
  | nil => intro i v; rfl
  | cons c t ih => intro i v; simp [countGo, ih, bumpAt_length]

theorem sumSq_nonneg (v : List ℚ) : 0 ≤ sumSq v := by
  induction v with
  | nil => simp [sumSq]
  | cons x t ih =>
    simp only [sumSq, List.map_cons, List.sum_cons]
    have hx : 0 ≤ x * x := mul_self_nonneg x
    have ht : 0 ≤ (t.map (fun x => x * x)).sum := ih
    linarith

theorem dotProd_comm (a b : List ℚ) : dotProd a b = dotProd b a := by
  induction a generalizing b with
  | nil => cases b <;> rfl
  | cons x t ih =>
    cases b with
    | nil => rfl
    | cons y s =>
      simp only [dotProd, List.zipWith_cons_cons, List.sum_cons]
      have := ih s
      simp only [dotProd] at this
      rw [this, mul_comm]

/-! ## Claim C4 -/

/-- C4: the fallback embedding equals its reference definition, for
every square-root primitive that is nonnegative on nonnegative inputs
(as `Math.sqrt` is): same count-and-normalize vector, embedding length
384, and reported token count `ceil(textLength / 4) = (len + 3) / 4`.
Determinism is inherent: the embedding is a pure function of the
text (two calls on the same text are the same term). -/
theorem simpleEmbedding_spec (sqrt : ℚ → ℚ)
    (hsqrt : ∀ q : ℚ, 0 ≤ q → 0 ≤ sqrt q) (text : List Char) :
    simpleEmbedding sqrt text = specFallbackEmbedding sqrt text
    ∧ (simpleEmbedding sqrt text).embedding.length = 384
    ∧ (simpleEmbedding sqrt text).tokenCount = (text.length + 3) / 4 := by
  have hmag : 0 ≤ sqrt (sumSq (rawCounts text)) := hsqrt _ (sumSq_nonneg _)
  have hlen : (rawCounts text).length = 384 := by
    unfold rawCounts
    rw [countGo_length, List.length_replicate]
  refine ⟨?_, ?_, rfl⟩
  · simp only [simpleEmbedding, specFallbackEmbedding]
    by_cases h : sqrt (sumSq (rawCounts text)) = 0
    · have hpos : ¬ (0 < sqrt (sumSq (rawCounts text))) := by
        rw [h]; exact lt_irrefl 0
      rw [if_neg hpos, if_pos h]
    · have hpos : 0 < sqrt (sumSq (rawCounts text)) :=
        lt_of_le_of_ne hmag (Ne.symm h)
      rw [if_pos hpos, if_neg h]
  · simp only [simpleEmbedding]
    by_cases hpos : 0 < sqrt (sumSq (rawCounts text))
    · rw [if_pos hpos]; simp [hlen]
    · rw [if_neg hpos]; exact hlen

/-- C4, witnessed at `sqrt = 0` and the text `"ab"`. -/
theorem simpleEmbedding_spec_witness :
    simpleEmbedding (fun _ => 0) "ab".toList
        = specFallbackEmbedding (fun _ => 0) "ab".toList
    ∧ (simpleEmbedding (fun _ => 0) "ab".toList).embedding.length = 384
    ∧ (simpleEmbedding (fun _ => 0) "ab".toList).tokenCount
        = ("ab".toList.length + 3) / 4 :=
  simpleEmbedding_spec (fun _ => 0) (fun _ _ => le_refl 0) "ab".toList

/-! ## Claim C5 -/

/-- C5: `cosineSimilarity` errors (the thrown `DimensionMismatch`
`Error`) exactly when the two vectors have different lengths; on
equal-length vectors it returns `dot(a,b) / (||a|| * ||b||)` (in the
zero-magnitude case both sides are the explicit `0`, since the
division's denominator is then `0`), and it returns `ok 0` — not an
error — whenever either magnitude is `0`. -/
theorem cosineSimilarity_contract (sqrt : ℚ → ℚ) (a b : List ℚ) :
    (cosineSimilarity sqrt a b = .error "Vectors must have same dimensions"
       ↔ a.length ≠ b.length)
    ∧ (a.length = b.length →
        cosineSimilarity sqrt a b
          = .ok (dotProd a b / (sqrt (sumSq a) * sqrt (sumSq b))))
    ∧ (a.length = b.length →
        (sqrt (sumSq a) = 0 ∨ sqrt (sumSq b) = 0) →
        cosineSimilarity sqrt a b = .ok 0) := by
  refine ⟨⟨?_, ?_⟩, ?_, ?_⟩
  · intro h
    by_contra hne
    have hnn : ¬ (a.length ≠ b.length) := fun hc => hc hne
    simp only [cosineSimilarity] at h
    rw [if_neg hnn] at h
    by_cases hz : sqrt (sumSq a) = 0 ∨ sqrt (sumSq b) = 0
    · rw [if_pos hz] at h; exact Except.noConfusion h
    · rw [if_neg hz] at h; exact Except.noConfusion h
  · intro hne
    simp [cosineSimilarity, hne]
  · intro heq
    simp only [cosineSimilarity, heq, ne_eq, not_true_eq_false, if_false]
    by_cases hz : sqrt (sumSq a) = 0 ∨ sqrt (sumSq b) = 0
    · rw [if_pos hz]
      rcases hz with hz | hz
      · rw [hz, zero_mul, div_zero]
      · rw [hz, mul_zero, div_zero]
    · rw [if_neg hz]
  · intro heq hz
    simp only [cosineSimilarity, heq, ne_eq, not_true_eq_false, if_false]
    rw [if_pos hz]

/-- C5, witnessed: unequal lengths error; a zero-magnitude pair
(under `sqrt = 0`) yields `ok 0`. -/
theorem cosineSimilarity_contract_witness :
    cosineSimilarity (fun _ => 0) [1] [1, 2]
        = .error "Vectors must have same dimensions"
    ∧ cosineSimilarity (fun _ => 0) [1] [1] = .ok 0 :=
  ⟨(cosineSimilarity_contract (fun _ => 0) [1] [1, 2]).1.mpr (by decide),
   (cosineSimilarity_contract (fun _ => 0) [1] [1]).2.2 rfl (Or.inl rfl)⟩

/-! ## Claim C10 -/

/-- C10: cosine similarity is symmetric — swapping the argument
vectors swaps nothing observable: the length check, the
zero-magnitude check and the quotient are all symmetric. -/
theorem cosineSimilarity_symm (sqrt : ℚ → ℚ) (a b : List ℚ) :
    cosineSimilarity sqrt a b = cosineSimilarity sqrt b a := by
  by_cases h : a.length = b.length
  · simp only [cosineSimilarity]
    have hnn1 : ¬ (a.length ≠ b.length) := fun hc => hc h
    have hnn2 : ¬ (b.length ≠ a.length) := fun hc => hc h.symm
    rw [if_neg hnn1, if_neg hnn2]
    by_cases hz : sqrt (sumSq a) = 0 ∨ sqrt (sumSq b) = 0
    · rw [if_pos hz, if_pos (Or.symm hz)]
    · rw [if_neg hz, if_neg (fun hc => hz (Or.symm hc))]
      rw [dotProd_comm, mul_comm]
  · have h2 : b.length ≠ a.length := fun hc => h hc.symm
    simp only [cosineSimilarity]
    rw [if_pos h, if_pos h2]

/-! ## Claim C1 -/

/-- A chunk first upserted under tenant `"tenantA"`. -/
def chunkA : Chunk := ⟨7, 100, "tenantA", ['a'], 0, some [1], none⟩

/-- The same chunk id re-upserted under tenant `"tenantB"`. -/
def chunkB : Chunk := ⟨7, 200, "tenantB", ['b'], 0, some [1], none⟩

/-- The store after `upsert([chunkA]); upsert([chunkB])`: the chunk
map now holds `chunkB` under id 7, but id 7 is still a member of
tenant `"tenantA"`'s index set, because `upsert` only ever adds to the
new tenant's set and never removes the id from the old one. -/
def crossStore : VStore := vsUpsert (vsUpsert emptyStore [chunkA]) [chunkB]

/-- C1: tenant isolation of search is violated by the code.  After
the upsert sequence of `crossStore`, searching tenant `"tenantA"`
returns `chunkB` — a chunk whose `tenantId` is `"tenantB"`, not the
queried tenant.  (Scores are computed with the identity square-root;
the identical embeddings give similarity 1.) -/
theorem tenant_isolation_violated :
    vsSearch (fun q => q) crossStore [1] "tenantA" 10 = .ok [⟨chunkB, 1⟩]
    ∧ (chunkB.tenantId == "tenantA") = false := by
  have hstore : crossStore =
      ⟨[(7, chunkB)], [("tenantA", [7]), ("tenantB", [7])]⟩ := rfl
  have hcos : cosineSimilarity (fun q => q) ([1] : List ℚ) [1] = .ok 1 := by
    unfold cosineSimilarity
    norm_num [sumSq, dotProd]
  have hti : alFind crossStore.tenantIndex "tenantA" = some [7] := rfl
  have hck : alFind crossStore.chunks 7 = some chunkB := rfl
  have hcol : collectScores (fun q => q) crossStore.chunks [1] [7]
      = .ok [⟨chunkB, 1⟩] := by
    simp only [collectScores, hck, chunkB]
    rw [hcos]
  refine ⟨?_, by decide⟩
  simp only [vsSearch, hti, hcol]
  rfl

/-! ## Helper lemmas: descending sort -/

theorem mem_insertDesc (x z : SearchResult) :
    ∀ l : List SearchResult, z ∈ insertDesc x l → z = x ∨ z ∈ l := by
  intro l
  induction l with
  | nil =>
    intro h
    simp only [insertDesc, List.mem_singleton] at h
    exact Or.inl h
  | cons y ys ih =>
    intro h
    simp only [insertDesc] at h
    by_cases hc : y.score < x.score
    · rw [if_pos hc] at h
      rcases List.mem_cons.mp h with h | h
      · exact Or.inl h
      · exact Or.inr h
    · rw [if_neg hc] at h
      rcases List.mem_cons.mp h with h | h
      · exact Or.inr (h ▸ List.mem_cons_self y ys)
      · rcases ih h with h | h
        · exact Or.inl h
        · exact Or.inr (List.mem_cons_of_mem y h)

theorem insertDesc_pairwise (x : SearchResult) :
    ∀ l : List SearchResult,
      l.Pairwise (fun a b => b.score ≤ a.score) →
      (insertDesc x l).Pairwise (fun a b => b.score ≤ a.score) := by
  intro l
  induction l with
  | nil => intro _; simp [insertDesc]
  | cons y ys ih =>
    intro h
    rw [List.pairwise_cons] at h
    obtain ⟨hy, hys⟩ := h
    simp only [insertDesc]
    by_cases hc : y.score < x.score
    · rw [if_pos hc]
      refine List.Pairwise.cons ?_ (List.Pairwise.cons hy hys)
      intro z hz
      rcases List.mem_cons.mp hz with rfl | hz
      · exact le_of_lt hc
      · exact le_trans (hy z hz) (le_of_lt hc)
    · rw [if_neg hc]
      refine List.Pairwise.cons ?_ (ih hys)
      intro z hz
      rcases mem_insertDesc x z ys hz with rfl | hz
      · exact le_of_not_lt hc
      · exact hy z hz

theorem sortDesc_pairwise (l : List SearchResult) :
    (sortDesc l).Pairwise (fun a b => b.score ≤ a.score) := by
  have hgen : ∀ (l1 acc : List SearchResult),
      acc.Pairwise (fun a b => b.score ≤ a.score) →
      (l1.foldl (fun a x => insertDesc x a) acc).Pairwise
        (fun a b => b.score ≤ a.score) := by
    intro l1
    induction l1 with
    | nil => intro acc h; exact h
    | cons x xs ih => intro acc h; exact ih _ (insertDesc_pairwise x acc h)
  exact hgen l [] List.Pairwise.nil

theorem vsSearch_sorted (sqrt : ℚ → ℚ) (vs : VStore) (emb : List ℚ)
    (t : String) (k : ℕ) (l : List SearchResult)
    (h : vsSearch sqrt vs emb t k = .ok l) :
    l.Pairwise (fun a b => b.score ≤ a.score) := by
  unfold vsSearch at h
  cases hti : alFind vs.tenantIndex t with
  | none =>
    rw [hti] at h
    dsimp only at h
    injection h with h
    subst h
    exact List.Pairwise.nil
  | some ids =>
    rw [hti] at h
    dsimp only at h
    by_cases hlen : ids.length = 0
    · rw [if_pos hlen] at h
      injection h with h
      subst h
      exact List.Pairwise.nil
    · rw [if_neg hlen] at h
      cases hcol : collectScores sqrt vs.chunks emb ids with
      | error msg => rw [hcol] at h; exact Except.noConfusion h
      | ok results =>
        rw [hcol] at h
        injection h with h
        subst h
        exact List.Pairwise.sublist (List.take_sublist _ _) (sortDesc_pairwise results)

/-! ## Claim C7 -/

/-- C7: the knowledge-base search contract.  When the underlying
vector search delivers the `2 * topK` over-fetched candidates, the
search (with `topK` defaulting to 3 and `minScore` to 1/2) succeeds
and returns exactly the candidates with `score ≥ minScore`, truncated
to `topK`, each mapped to
`{content, source (or "Unknown"), relevanceScore}`; every returned
score clears `minScore`, at most `topK` results come back, they are
sorted descending by score, and if no candidate clears the threshold
the result is the empty list — never an error. -/
theorem kbSearch_contract (sqrt : ℚ → ℚ) (vs : VStore) (q : SearchQuery)
    (cands : List SearchResult)
    (h : vsSearch sqrt vs (simpleEmbedding sqrt q.queryText).embedding q.tenantId
        (q.topK.getD 3 * 2) = .ok cands) :
    ∃ out, kbSearch sqrt vs q = .ok out
      ∧ out = ((cands.filter (fun r => q.minScore.getD (1 / 2) ≤ r.score)).take
          (q.topK.getD 3)).map toKBResult
      ∧ (∀ r ∈ out, q.minScore.getD (1 / 2) ≤ r.relevanceScore)
      ∧ out.length ≤ q.topK.getD 3
      ∧ (out.map KBResult.relevanceScore).Pairwise (fun a b => b ≤ a)
      ∧ ((∀ r ∈ cands, r.score < q.minScore.getD (1 / 2)) → out = []) := by
  refine ⟨_, ?_, rfl, ?_, ?_, ?_, ?_⟩
  · simp only [kbSearch, h]
  · intro r hr
    obtain ⟨r1, hr1, hrr⟩ := List.mem_map.mp hr
    have hr2 := List.mem_of_mem_take hr1
    have hr3 := (List.mem_filter.mp hr2).2
    have hr4 : q.minScore.getD (1 / 2) ≤ r1.score := of_decide_eq_true hr3
    rw [← hrr]
    exact hr4
  · rw [List.length_map]
    exact List.length_take_le _ _
  · have hs := vsSearch_sorted sqrt vs (simpleEmbedding sqrt q.queryText).embedding
      q.tenantId (q.topK.getD 3 * 2) cands h
    have hfil : (cands.filter
        (fun r => decide (q.minScore.getD (1 / 2) ≤ r.score))).Pairwise
        (fun a b => b.score ≤ a.score) :=
      List.Pairwise.sublist (List.filter_sublist _) hs
    have htake := List.Pairwise.sublist (List.take_sublist (q.topK.getD 3) _) hfil
    rw [List.map_map, List.pairwise_map]
    exact htake
  · intro hall
    have hnil : cands.filter (fun r => decide (q.minScore.getD (1 / 2) ≤ r.score))
        = [] := by
      apply List.filter_eq_nil_iff.mpr
      intro a ha
      simp only [decide_eq_true_eq]
      exact not_le.mpr (hall a ha)
    rw [hnil]
    simp

/-- C7, witnessed on the empty store: the search returns the empty
list, not an error. -/
theorem kbSearch_contract_witness :
    kbSearch (fun _ => 0) emptyStore ⟨[], "t", none, none⟩ = .ok [] := by
  obtain ⟨out, h1, _, _, _, _, h6⟩ :=
    kbSearch_contract (fun _ => 0) emptyStore ⟨[], "t", none, none⟩ [] rfl
  rw [h1, h6 (fun r hr => absurd hr (List.not_mem_nil r))]

/-! ## Claim C9 -/

theorem alFind_alDel_self {κ α : Type} [DecidableEq κ]
    (m : List (κ × α)) (k : κ) : alFind (alDel m k) k = none := by
  induction m with
  | nil => rfl
  | cons p t ih =>
    by_cases h : p.1 = k
    · simpa [alDel, List.filter_cons, h] using ih
    · simpa [alDel, List.filter_cons, h, alFind] using ih

/-- C9: `deleteDocument` returns `false` (not an error) and leaves the
state untouched when the document is missing or owned by a different
tenant; on success it removes exactly that document's metadata and
leaves the vector store — and hence the document's chunks — entirely
unchanged.  Chunks are purged only by `deleteAllForTenant`, which
swaps in `deleteByTenant`'s store, in which the tenant's partition is
gone. -/
theorem deleteDocument_frame (st : KBState) (docId : ℕ) (tenantId : String) :
    (alFind st.documents docId = none →
      deleteDocument st docId tenantId = (false, st))
    ∧ (∀ d, alFind st.documents docId = some d → d.tenantId ≠ tenantId →
        deleteDocument st docId tenantId = (false, st))
    ∧ (∀ d, alFind st.documents docId = some d → d.tenantId = tenantId →
        deleteDocument st docId tenantId
          = (true, ⟨st.nextId, alDel st.documents docId, st.store⟩))
    ∧ (deleteAllForTenant st tenantId).2.store = vsDeleteByTenant st.store tenantId
    ∧ alFind (vsDeleteByTenant st.store tenantId).tenantIndex tenantId = none := by
  refine ⟨?_, ?_, ?_, rfl, ?_⟩
  · intro h
    simp [deleteDocument, h]
  · intro d h hne
    simp [deleteDocument, h, hne]
  · intro d h he
    simp [deleteDocument, h, he]
  · unfold vsDeleteByTenant
    cases hti : alFind st.store.tenantIndex tenantId with
    | none => exact hti
    | some ids => exact alFind_alDel_self _ _

/-- C9, witnessed: a wrong-tenant delete is a refused no-op, a
matching delete removes the metadata and keeps the store. -/
theorem deleteDocument_frame_witness :
    deleteDocument ⟨5, [(1, ⟨"tA"⟩)], emptyStore⟩ 1 "tB"
        = (false, ⟨5, [(1, ⟨"tA"⟩)], emptyStore⟩)
    ∧ deleteDocument ⟨5, [(1, ⟨"tA"⟩)], emptyStore⟩ 1 "tA"
        = (true, ⟨5, alDel [(1, (⟨"tA"⟩ : DocRec))] 1, emptyStore⟩) :=
  ⟨(deleteDocument_frame ⟨5, [(1, ⟨"tA"⟩)], emptyStore⟩ 1 "tB").2.1
      ⟨"tA"⟩ rfl (by decide),
   (deleteDocument_frame ⟨5, [(1, ⟨"tA"⟩)], emptyStore⟩ 1 "tA").2.2.1
      ⟨"tA"⟩ rfl rfl⟩

/-! ## Helper lemmas: association maps and fresh ids -/

theorem alFind_some_mem {κ α : Type} [DecidableEq κ] :
    ∀ (m : List (κ × α)) (k : κ) (v : α), alFind m k = some v → (k, v) ∈ m := by
  intro m
  induction m with
  | nil => intro k v h; exact Option.noConfusion h
  | cons p t ih =>
    intro k v h
    obtain ⟨p1, p2⟩ := p
    by_cases hk : p1 = k
    · simp only [alFind, if_pos hk] at h
      injection h with h
      subst h
      subst hk
      exact List.mem_cons_self _ _
    · simp only [alFind, if_neg hk] at h
      exact List.mem_cons_of_mem _ (ih k v h)

theorem alFind_alSet {κ α : Type} [DecidableEq κ] :
    ∀ (m : List (κ × α)) (k : κ) (v : α) (k1 : κ),
      alFind (alSet m k v) k1 = if k1 = k then some v else alFind m k1 := by
  intro m
  induction m with
  | nil =>
    intro k v k1
    by_cases h : k1 = k
    · subst h; simp [alSet, alFind]
    · have h2 : ¬ (k = k1) := fun hc => h hc.symm
      simp [alSet, alFind, h, h2]
  | cons p t ih =>
    intro k v k1
    obtain ⟨p1, p2⟩ := p
    by_cases hp : p1 = k
    · by_cases h : k1 = k
      · subst h
        simp [alSet, alFind, hp]
      · have h2 : ¬ (k = k1) := fun hc => h hc.symm
        have h3 : ¬ (p1 = k1) := by rw [hp]; exact h2
        simp [alSet, alFind, hp, h, h2, h3]
    · by_cases h1 : p1 = k1
      · have h2 : ¬ (k1 = k) := by rw [← h1]; exact fun hc => hp hc
        simp [alSet, alFind, hp, h1, h2]
      · simp only [alSet, if_neg hp, alFind, if_neg h1]
        exact ih k v k1

theorem alSet_keys_bound {κ α : Type} [DecidableEq κ] (P : κ → Prop) :
    ∀ (m : List (κ × α)) (k : κ) (v : α),
      (∀ p ∈ m, P p.1) → P k → ∀ p ∈ alSet m k v, P p.1 := by
  intro m
  induction m with
  | nil =>
    intro k v _ hk p hp
    simp only [alSet, List.mem_singleton] at hp
    subst hp
    exact hk
  | cons q t ih =>
    intro k v hm hk p hp
    obtain ⟨q1, q2⟩ := q
    by_cases hq : q1 = k
    · simp only [alSet, if_pos hq] at hp
      rcases List.mem_cons.mp hp with rfl | hp
      · exact hk
      · exact hm p (List.mem_cons_of_mem _ hp)
    · simp only [alSet, if_neg hq] at hp
      rcases List.mem_cons.mp hp with rfl | hp
      · exact hm _ (List.mem_cons_self _ _)
      · exact ih k v (fun p1 hp1 => hm p1 (List.mem_cons_of_mem _ hp1)) hk p hp

theorem mkChunks_id_bounds (tenant : String) (docId : ℕ) (src : String) :
    ∀ (ps : List (List Char × ℕ)) (n : ℕ) (c : Chunk),
      c ∈ mkChunks tenant docId src n ps → n ≤ c.id ∧ c.id < n + ps.length := by
  intro ps
  induction ps with
  | nil => intro n c hc; exact absurd hc (List.not_mem_nil c)
  | cons p t ih =>
    intro n c hc
    rcases List.mem_cons.mp hc with rfl | hc
    · exact ⟨le_refl n, by simp⟩
    · obtain ⟨h1, h2⟩ := ih (n + 1) c hc
      exact ⟨by omega, by simp only [List.length_cons]; omega⟩

theorem mkChunks_contents (tenant : String) (docId : ℕ) (src : String) :
    ∀ (ps : List (List Char × ℕ)) (n : ℕ),
      (mkChunks tenant docId src n ps).map Chunk.content
        = ps.map (fun p => p.1) := by
  intro ps
  induction ps with
  | nil => intro n; rfl
  | cons p t ih => intro n; simp [mkChunks, ih]

theorem attachEmbeddings_mem :
    ∀ (cs : List Chunk) (es : List (List ℚ)) (c1 : Chunk),
      c1 ∈ attachEmbeddings cs es → ∃ c ∈ cs, c1.id = c.id := by
  intro cs
  induction cs with
  | nil => intro es c1 h; exact absurd h (by simp [attachEmbeddings])
  | cons c t ih =>
    intro es c1 h
    cases es with
    | nil => exact absurd h (by simp [attachEmbeddings])
    | cons e es =>
      simp only [attachEmbeddings, List.zipWith_cons_cons] at h
      rcases List.mem_cons.mp h with rfl | h
      · exact ⟨c, List.mem_cons_self _ _, rfl⟩
      · obtain ⟨c2, hc2, hid⟩ := ih es c1 h
        exact ⟨c2, List.mem_cons_of_mem _ hc2, hid⟩

theorem upsertOne_preserves (vs : VStore) (c1 : Chunk) (id : ℕ) (c : Chunk)
    (hne : c1.id ≠ id) (h : alFind vs.chunks id = some c) :
    alFind (upsertOne vs c1).chunks id = some c := by
  have hnid : ¬ (id = c1.id) := fun hc => hne hc.symm
  unfold upsertOne
  cases alFind vs.tenantIndex c1.tenantId with
  | none => simpa [alFind_alSet, hnid] using h
  | some ids => simpa [alFind_alSet, hnid] using h

theorem vsUpsert_preserves :
    ∀ (cs : List Chunk) (vs : VStore) (id : ℕ) (c : Chunk),
      (∀ c1 ∈ cs, c1.id ≠ id) → alFind vs.chunks id = some c →
      alFind (vsUpsert vs cs).chunks id = some c := by
  intro cs
  induction cs with
  | nil => intro vs id c _ h; exact h
  | cons c1 t ih =>
    intro vs id c hne h
    exact ih (upsertOne vs c1) id c
      (fun c2 hc2 => hne c2 (List.mem_cons_of_mem _ hc2))
      (upsertOne_preserves vs c1 id c (hne c1 (List.mem_cons_self _ _)) h)

theorem upsertOne_keys (n : ℕ) (vs : VStore) (c1 : Chunk)
    (hm : ∀ p ∈ vs.chunks, p.1 < n) (hc : c1.id < n) :
    ∀ p ∈ (upsertOne vs c1).chunks, p.1 < n := by
  unfold upsertOne
  cases alFind vs.tenantIndex c1.tenantId with
  | none => exact alSet_keys_bound (fun k => k < n) vs.chunks c1.id c1 hm hc
  | some ids => exact alSet_keys_bound (fun k => k < n) vs.chunks c1.id c1 hm hc

theorem vsUpsert_keys (n : ℕ) :
    ∀ (cs : List Chunk) (vs : VStore),
      (∀ p ∈ vs.chunks, p.1 < n) → (∀ c1 ∈ cs, c1.id < n) →
      ∀ p ∈ (vsUpsert vs cs).chunks, p.1 < n := by
  intro cs
  induction cs with
  | nil => intro vs hm _; exact hm
  | cons c1 t ih =>
    intro vs hm hcs
    exact ih (upsertOne vs c1)
      (upsertOne_keys n vs c1 hm (hcs c1 (List.mem_cons_self _ _)))
      (fun c2 hc2 => hcs c2 (List.mem_cons_of_mem _ hc2))

/-- Freshness invariant of the uuid counter: every chunk id and every
document id in the state is below the counter. -/
def IdsBelow (st : KBState) : Prop :=
  (∀ p ∈ st.store.chunks, p.1 < st.nextId)
    ∧ (∀ p ∈ st.documents, p.1 < st.nextId)

theorem mkChunks_length (tenant : String) (docId : ℕ) (src : String) :
    ∀ (ps : List (List Char × ℕ)) (n : ℕ),
      (mkChunks tenant docId src n ps).length = ps.length := by
  intro ps
  induction ps with
  | nil => intro n; rfl
  | cons p t ih => intro n; simp [mkChunks, ih]

theorem ingestDoc_step (embedB : List (List Char) → Except String (List (List ℚ)))
    (fuel : ℕ) (cfg : ChunkConfig) (tenant : String) (st : KBState)
    (d : DocSpec) (r : IngestResult) (st1 : KBState)
    (hinv : IdsBelow st)
    (h : ingestDoc embedB fuel cfg tenant st d = some (r, st1)) :
    IdsBelow st1
    ∧ (∀ id c, alFind st.store.chunks id = some c →
        alFind st1.store.chunks id = some c)
    ∧ (∀ id dr, alFind st.documents id = some dr →
        alFind st1.documents id = some dr)
    ∧ (match embedB (docTexts fuel cfg d) with
       | .error e => r.success = false ∧ r.error = some e
       | .ok _ => r.success = true ∧ r.error = none) := by
  unfold ingestDoc at h
  cases hch : chunkDocumentF fuel cfg d.content with
  | none =>
    rw [hch] at h
    exact Option.noConfusion h
  | some pieces =>
    rw [hch] at h
    dsimp only at h
    have htexts : docTexts fuel cfg d = pieces.map (fun p => p.1) := by
      unfold docTexts
      rw [hch]
    have hmap : (mkChunks tenant st.nextId d.source (st.nextId + 1) pieces).map
        Chunk.content = pieces.map (fun p => p.1) :=
      mkChunks_contents tenant st.nextId d.source pieces (st.nextId + 1)
    cases hemb : embedB ((mkChunks tenant st.nextId d.source
        (st.nextId + 1) pieces).map Chunk.content) with
    | error e =>
      rw [hemb] at h
      dsimp only at h
      injection h with h1
      injection h1 with hr hst
      subst hr
      subst hst
      refine ⟨hinv, fun id c hc => hc, fun id dr hd => hd, ?_⟩
      rw [htexts, ← hmap, hemb]
      exact ⟨rfl, rfl⟩
    | ok embs =>
      rw [hemb] at h
      dsimp only at h
      injection h with h1
      injection h1 with hr hst
      subst hr
      subst hst
      have hlenC : (mkChunks tenant st.nextId d.source (st.nextId + 1)
          pieces).length = pieces.length :=
        mkChunks_length tenant st.nextId d.source pieces (st.nextId + 1)
      refine ⟨⟨?_, ?_⟩, ?_, ?_, ?_⟩
      · -- chunk ids in the new store stay below the new counter
        show ∀ p ∈ (vsUpsert st.store (attachEmbeddings
            (mkChunks tenant st.nextId d.source (st.nextId + 1) pieces)
            embs)).chunks,
          p.1 < st.nextId + 1
            + (mkChunks tenant st.nextId d.source (st.nextId + 1) pieces).length
        apply vsUpsert_keys
        · intro p hp
          have := hinv.1 p hp
          omega
        · intro c1 hc1
          obtain ⟨c2, hc2, hid⟩ := attachEmbeddings_mem _ embs c1 hc1
          obtain ⟨hlo, hhi⟩ := mkChunks_id_bounds tenant st.nextId d.source
            pieces (st.nextId + 1) c2 hc2
          omega
      · -- document ids stay below the new counter
        show ∀ p ∈ alSet st.documents st.nextId ⟨tenant⟩,
          p.1 < st.nextId + 1
            + (mkChunks tenant st.nextId d.source (st.nextId + 1) pieces).length
        exact alSet_keys_bound
          (fun k => k < st.nextId + 1
            + (mkChunks tenant st.nextId d.source (st.nextId + 1) pieces).length)
          st.documents st.nextId ⟨tenant⟩
          (fun p hp => by have := hinv.2 p hp; omega) (by omega)
      · -- earlier chunks persist
        intro id c hc
        have hid : id < st.nextId := by
          have := hinv.1 (id, c) (alFind_some_mem st.store.chunks id c hc)
          simpa using this
        show alFind (vsUpsert st.store (attachEmbeddings
            (mkChunks tenant st.nextId d.source (st.nextId + 1) pieces)
            embs)).chunks id = some c
        apply vsUpsert_preserves
        · intro c1 hc1
          obtain ⟨c2, hc2, hideq⟩ := attachEmbeddings_mem _ embs c1 hc1
          obtain ⟨hlo, _⟩ := mkChunks_id_bounds tenant st.nextId d.source
            pieces (st.nextId + 1) c2 hc2
          omega
        · exact hc
      · -- earlier document metadata persists
        intro id dr hd
        have hid : id < st.nextId := by
          have := hinv.2 (id, dr) (alFind_some_mem st.documents id dr hd)
          simpa using this
        show alFind (alSet st.documents st.nextId ⟨tenant⟩) id = some dr
        rw [alFind_alSet]
        rw [if_neg (by omega)]
        exact hd
      · rw [htexts, ← hmap, hemb]
        exact ⟨rfl, rfl⟩

/-! ## Claim C8 -/

/-- C8: per-document ingest atomicity.  For every batch, `ingest`
returns exactly one result entry per input document, in order; entry
`i` is `failed` with the caught error message exactly when document
`i`'s own embedding call fails (a fact of that document alone — a
failure never depends on, nor aborts, its siblings); and every chunk
and every document-metadata binding present in the store before the
batch — in particular those written by earlier successful documents —
is still present, unchanged, afterwards. -/
theorem ingest_perDocument
    (embedB : List (List Char) → Except String (List (List ℚ)))
    (fuel : ℕ) (cfg : ChunkConfig) (tenant : String) :
    ∀ (docs : List DocSpec) (st0 : KBState) (results : List IngestResult)
      (stF : KBState),
      IdsBelow st0 →
      ingest embedB fuel cfg tenant docs st0 = some (results, stF) →
      results.length = docs.length
      ∧ (∀ i d, docs.get? i = some d →
          ∃ r, results.get? i = some r
            ∧ (match embedB (docTexts fuel cfg d) with
               | .error e => r.success = false ∧ r.error = some e
               | .ok _ => r.success = true ∧ r.error = none))
      ∧ (∀ id c, alFind st0.store.chunks id = some c →
          alFind stF.store.chunks id = some c)
      ∧ (∀ id dr, alFind st0.documents id = some dr →
          alFind stF.documents id = some dr) := by
  intro docs
  induction docs with
  | nil =>
    intro st0 results stF hinv h
    simp only [ingest] at h
    injection h with h1
    injection h1 with hres hstf
    subst hres
    subst hstf
    refine ⟨rfl, ?_, fun id c hc => hc, fun id dr hd => hd⟩
    intro i d hd
    exact absurd hd (by simp)
  | cons d ds ih =>
    intro st0 results stF hinv h
    simp only [ingest] at h
    cases hd : ingestDoc embedB fuel cfg tenant st0 d with
    | none =>
      rw [hd] at h
      exact Option.noConfusion h
    | some pr =>
      obtain ⟨r, st1⟩ := pr
      rw [hd] at h
      dsimp only at h
      cases hrest : ingest embedB fuel cfg tenant ds st1 with
      | none =>
        rw [hrest] at h
        exact Option.noConfusion h
      | some pr2 =>
        obtain ⟨rs, st2⟩ := pr2
        rw [hrest] at h
        dsimp only at h
        injection h with h1
        injection h1 with hres hstf
        subst hres
        subst hstf
        obtain ⟨hinv1, hpres1, hpresd1, hmatch⟩ :=
          ingestDoc_step embedB fuel cfg tenant st0 d r st1 hinv hd
        obtain ⟨hlen, hidx, hpres2, hpresd2⟩ := ih st1 rs st2 hinv1 hrest
        refine ⟨by simp [hlen], ?_,
          fun id c hc => hpres2 id c (hpres1 id c hc),
          fun id dr hdr => hpresd2 id dr (hpresd1 id dr hdr)⟩
        intro i dd hdd
        cases i with
        | zero =>
          injection hdd with hdd
          subst hdd
          exact ⟨r, rfl, hmatch⟩
        | succ j => exact hidx j dd hdd

/-- C8, witnessed through the theorem on a one-document batch: one
result entry per input document. -/
theorem ingest_perDocument_witness :
    ([(⟨some 0, 1, true, none⟩ : IngestResult)]).length
      = [(⟨"doc", "hi".toList, "s"⟩ : DocSpec)].length := by
  obtain ⟨h1, _, _, _⟩ := ingest_perDocument
    (fun ts => .ok (ts.map (fun _ => ([1] : List ℚ))))
    0 defaultChunkConfig "t1" [⟨"doc", "hi".toList, "s"⟩] ⟨0, [], emptyStore⟩
    [⟨some 0, 1, true, none⟩]
    ⟨2, [(0, ⟨"t1"⟩)],
      ⟨[(1, ⟨1, 0, "t1", "hi".toList, 0, some [1], some "s"⟩)], [("t1", [1])]⟩⟩
    ⟨fun p hp => absurd hp (List.not_mem_nil p),
     fun p hp => absurd hp (List.not_mem_nil p)⟩
    rfl
  exact h1
